import Mathlib

/-!
Verification development for the sietsemap pipeline
(`src/build_sietsemap.py`).

The Python source is shallowly embedded here.  Strings are modelled as
`List Char` (Python strings are sequences of code points).  Character
classes of the regular expressions are modelled on the ASCII range that
the patterns and the claims exercise.  The regex engine is a
backtracking matcher restricted to the atom shapes actually occurring in
`ADDRESS_PATTERNS` (every quantifier in those patterns applies to a
single character class, and the only alternation is over literal borough
names), with Python semantics: leftmost scan, greedy quantifiers tried
longest first, alternatives tried left to right, non-overlapping
`finditer`.

External collaborators (HTML-to-text conversion, the spaCy NER model,
the geopy geocoder, the file system) are modelled at their interface
boundary as explicit inputs, as the spec prescribes.
-/

namespace Sietsemap

/-! ## Character classes and small string helpers -/

/-- Python `\d` on the ASCII range: a decimal digit. -/
def isDigitC (c : Char) : Bool := c.isDigit

/-- Python `\w` on the ASCII range: letter, digit or underscore. -/
def isWordC (c : Char) : Bool := c.isAlphanum || c = '_'

/-- Python `\s` on the ASCII range: the whitespace characters
stripped by `str.strip` and matched by `\s`. -/
def isSpaceC (c : Char) : Bool :=
  c = ' ' || c = '\t' || c = '\n' || c = '\x0d' || c = '\x0b' || c = '\x0c'

/-- `[A-Z]` under `re.IGNORECASE`: any ASCII letter. -/
def isAlphaC (c : Char) : Bool := c.isAlpha

/-- The apostrophe character, written by code point to keep the
source text free of quote-literal noise. -/
def apos : Char := Char.ofNat 39

/-- The bracketed class of patterns 1, 2 and 4: word or space
characters, dot, comma, apostrophe, ampersand, slash, dash. -/
def cls1 (c : Char) : Bool :=
  isWordC c || isSpaceC c || c = '.' || c = ',' || c = apos || c = '&' || c = '/' || c = '-'

/-- The class of pattern 3 (no comma, no ampersand inside the class). -/
def cls2 (c : Char) : Bool :=
  isWordC c || isSpaceC c || c = '.' || c = apos || c = '/' || c = '-'

/-- `[^,]`: any character other than a comma. -/
def notComma (c : Char) : Bool := c ≠ ','

/-- ASCII lowering, the case folding used for `re.IGNORECASE` on the
character ranges these patterns exercise. -/
def asciiLower (c : Char) : Char :=
  if 'A' ≤ c && c ≤ 'Z' then Char.ofNat (c.toNat + 32) else c

/-- Case-insensitive character comparison. -/
def ciEq (c d : Char) : Bool := asciiLower c = asciiLower d

/-- `ciStarts w s`: `w` is a case-insensitive leading segment of `s`. -/
def ciStarts : List Char → List Char → Bool
  | [], _ => true
  | _ :: _, [] => false
  | a :: as, b :: bs => ciEq a b && ciStarts as bs

/-- `ciHas w s`: `w` occurs case-insensitively somewhere inside `s`. -/
def ciHas (w s : List Char) : Bool :=
  (List.range (s.length + 1)).any (fun n => ciStarts w (s.drop n))

/-- `csStarts w s`: `w` is an exact (case-sensitive) leading segment of
`s`; this is the semantics of Python `str.startswith`. -/
def csStarts : List Char → List Char → Bool
  | [], _ => true
  | _ :: _, [] => false
  | a :: as, b :: bs => a = b && csStarts as bs

/-- `csHas w s`: `w` occurs exactly somewhere inside `s`; this is the
semantics of the Python operator `w in s` on strings. -/
def csHas (w s : List Char) : Bool :=
  (List.range (s.length + 1)).any (fun n => csStarts w (s.drop n))

/-- `subList t s`: `t` is a contiguous segment of `s` (spaCy entity
texts are spans of the document text). -/
def subList (t s : List Char) : Bool := csHas t s

/-- Length of the maximal leading run of characters satisfying `p`. -/
def runLen (p : Char → Bool) : List Char → Nat
  | [] => 0
  | c :: r => if p c then runLen p r + 1 else 0

/-- Python `str.strip()` (ASCII whitespace). -/
def stripPy (s : List Char) : List Char :=
  ((s.dropWhile isSpaceC).reverse.dropWhile isSpaceC).reverse

/-- The line-boundary characters recognised by Python
`str.splitlines`. -/
def isLB (c : Char) : Bool :=
  c = '\n' || c = '\x0d' || c = '\x0b' || c = '\x0c' || c = '\x1c' ||
  c = '\x1d' || c = '\x1e' || c = '\x85' ||
  c = Char.ofNat 0x2028 || c = Char.ofNat 0x2029

/-- Worker for `splitlinesL`; `acc` holds the current line reversed. -/
def splitAux : List Char → List Char → List (List Char)
  | [], acc => [acc.reverse]
  | '\x0d' :: '\n' :: r, acc =>
      acc.reverse :: (if r.isEmpty then [] else splitAux r [])
  | c :: r, acc =>
      if isLB c then acc.reverse :: (if r.isEmpty then [] else splitAux r [])
      else splitAux r (c :: acc)

/-- Python `str.splitlines()` (without keepends): the empty string
yields no lines, a trailing line boundary yields no trailing empty
line, and a `\x0d\n` pair is a single boundary. -/
def splitlinesL (s : List Char) : List (List Char) :=
  if s.isEmpty then [] else splitAux s []

/-- Python slice `s[a:b]` (with the usual clamping). -/
def sliceL (s : List Char) (a b : Nat) : List Char := (s.take b).drop a

/-- Python `"…".join(lines)`. -/
def joinGlyph (xs : List (List Char)) : List Char := List.intercalate ['…'] xs

/-! ## Regex engine

The four patterns of `ADDRESS_PATTERNS` are sequences of atoms in which
every quantifier governs a single character class and the only
alternation is over literal words.  A pattern is therefore a
`List Atom`, and matching enumerates backtracking alternatives in the
priority order of Python's engine (greedy quantifiers longest first,
alternatives left to right, `?` consuming first). -/

/-- One atom of a pattern. -/
inductive Atom where
  /-- a single character of the class -/
  | one (p : Char → Bool)
  /-- `?` on a class (greedy) -/
  | opt (p : Char → Bool)
  /-- `+` on a class (greedy) -/
  | plus (p : Char → Bool)
  /-- `*` on a class (greedy) -/
  | star (p : Char → Bool)
  /-- `{lo,hi}` on a class (greedy) -/
  | rep (p : Char → Bool) (lo hi : Nat)
  /-- a literal word, case-insensitive because of `re.I` -/
  | lit (w : List Char)
  /-- an alternation of literal words, case-insensitive -/
  | alts (ws : List (List Char))

/-- The suffixes that may remain after `a` consumes a leading portion of
`s`, in the priority order in which Python's backtracking engine tries
them. -/
def atomNexts (a : Atom) (s : List Char) : List (List Char) :=
  match a with
  | .one p => match s with
    | [] => []
    | c :: r => if p c then [r] else []
  | .opt p => match s with
    | [] => [[]]
    | c :: r => if p c then [r, c :: r] else [c :: r]
  | .plus p =>
      (List.range (runLen p s)).map (fun i => s.drop (runLen p s - i))
  | .star p =>
      (List.range (runLen p s + 1)).map (fun i => s.drop (runLen p s - i))
  | .rep p lo hi =>
      if min (runLen p s) hi < lo then []
      else (List.range (min (runLen p s) hi - lo + 1)).map
        (fun i => s.drop (min (runLen p s) hi - i))
  | .lit w => if ciStarts w s then [s.drop w.length] else []
  | .alts ws => ws.filterMap (fun w => if ciStarts w s then some (s.drop w.length) else none)

/-- Backtracking match of a sequence of atoms against a leading portion
of `s`: the first alternative (in priority order) under which the whole
sequence succeeds, returning the unconsumed suffix. -/
def seqMatch : List Atom → List Char → Option (List Char)
  | [], s => some s
  | a :: as, s => (atomNexts a s).findSome? (fun s2 => seqMatch as s2)

/-- Worker for `finditer`: scan for non-overlapping leftmost matches
starting at `pos`, exactly as Python's `Pattern.finditer`.  The fuel is
an upper bound on the number of scan steps (`pos` strictly increases at
every step). -/
def finditerAux (pat : List Atom) (text : List Char) (pos : Nat) : Nat → List (Nat × Nat)
  | 0 => []
  | fuel + 1 =>
    if pos > text.length then []
    else
      match seqMatch pat (text.drop pos) with
      | some rest =>
          let e := text.length - rest.length
          (pos, e) :: finditerAux pat text (if pos < e then e else pos + 1) fuel
      | none => finditerAux pat text (pos + 1) fuel

/-- Python `pattern.finditer(text)`, as the list of `(start, end)`
spans of the non-overlapping leftmost matches. -/
def finditer (pat : List Atom) (text : List Char) : List (Nat × Nat) :=
  finditerAux pat text 0 (text.length + 2)

/-- The borough alternation
`(Brooklyn|Bronx|Queens|Manhattan|Staten Island|New York|NYC)`, which is
also the token list of the NER filter at line 59 of the source. -/
def BOROUGHS : List (List Char) :=
  ["Brooklyn".toList, "Bronx".toList, "Queens".toList, "Manhattan".toList,
   "Staten Island".toList, "New York".toList, "NYC".toList]

/-- Pattern 1 (line 24): numbered street, borough and a 5-digit zip. -/
def pat1 : List Atom :=
  [.rep isDigitC 1 5, .opt isAlphaC, .plus isSpaceC, .plus cls1, .lit [','],
   .star isSpaceC, .alts BOROUGHS, .star notComma, .rep isDigitC 5 5]

/-- Pattern 2 (line 25): numbered street and borough. -/
def pat2 : List Atom :=
  [.rep isDigitC 1 5, .opt isAlphaC, .plus isSpaceC, .plus cls1, .lit [','],
   .star isSpaceC, .alts BOROUGHS]

/-- Pattern 3 (line 26): ampersand intersection and borough. -/
def pat3 : List Atom :=
  [.plus cls2, .lit ['&'], .plus cls2, .lit [','], .star isSpaceC, .alts BOROUGHS]

/-- Pattern 4 (line 27): bare numbered street. -/
def pat4 : List Atom :=
  [.rep isDigitC 1 5, .opt isAlphaC, .plus isSpaceC, .plus cls1]

/-- `ADDRESS_PATTERNS` (lines 23 to 28), in source order, most specific
first. -/
def ADDRESS_PATTERNS : List (List Atom) := [pat1, pat2, pat3, pat4]

/-! ## Candidate Extractor (`extract_restaurants_flexible`, lines 41 to 69)

The extractor is modelled on the plain text of the article
(`soup.get_text("\n")`; HTML-to-text conversion is an external
collaborator) together with the output of the spaCy NER model, which is
likewise external and enters as an explicit list of `(label, text)`
entity pairs. -/

/-- A candidate record: the dict `{"name": …, "address": …, "blurb":
…}` built at lines 53 and 60. -/
structure Cand where
  name : List Char
  address : List Char
  blurb : List Char
deriving DecidableEq, Repr

/-- One spaCy entity, as its label and its text. -/
structure Ent where
  label : List Char
  text : List Char
deriving DecidableEq, Repr

/-- Line 52: `"…".join(text[match.start(): match.end()+140].splitlines())[:260]`. -/
def codeSnippet (text : List Char) (s e : Nat) : List Char :=
  (joinGlyph (splitlinesL (sliceL text s (e + 140)))).take 260

/-- Lines 49 to 53: the candidate built from one regex match with span
`[s, e)`. -/
def mkPatCand (text : List Char) (se : Nat × Nat) : Cand :=
  let before := splitlinesL (text.take se.1)
  { name := match before.getLast? with
      | some l => stripPy l
      | none => "Unnamed".toList
    address := stripPy (sliceL text se.1 se.2)
    blurb := codeSnippet text se.1 se.2 }

/-- Lines 47 to 53: all pattern-based candidates, patterns in source
order, matches of each pattern in text order. -/
def patternFound (text : List Char) : List Cand :=
  ADDRESS_PATTERNS.flatMap (fun p => (finditer p text).map (fun se => mkPatCand text se))

/-- The entity labels accepted at line 58. -/
def NER_LABELS : List (List Char) :=
  ["ORG".toList, "FAC".toList, "GPE".toList, "LOC".toList]

/-- Line 59: the entity filter — the text contains a digit
(`re.search(r"\d{1,5}", …)`) or one of the borough tokens
(case-sensitive `in`). -/
def entKeep (t : List Char) : Bool :=
  t.any isDigitC || BOROUGHS.any (fun b => csHas b t)

/-- Lines 56 to 60: the NER fallback path; an accepted entity yields a
candidate with `address = name = entity text` and an empty blurb. -/
def nerFound (ents : List Ent) : List Cand :=
  ents.filterMap (fun en =>
    if en.label ∈ NER_LABELS && entKeep en.text then
      some { name := en.text, address := en.text, blurb := [] }
    else none)

/-- The `found` list at the start of the dedup loop (line 65): pattern
candidates followed by entity candidates. -/
def allFound (text : List Char) (ents : List Ent) : List Cand :=
  patternFound text ++ nerFound ents

/-- Lines 62 to 69: keep the first candidate for each address. -/
def dedupAux : List Cand → List (List Char) → List Cand
  | [], _ => []
  | r :: rest, seen =>
      if r.address ∈ seen then dedupAux rest seen
      else r :: dedupAux rest (r.address :: seen)

/-- `extract_restaurants_flexible` (lines 41 to 69), as a function of
the article's plain text and of the NER output. -/
def extract_restaurants_flexible (text : List Char) (ents : List Ent) : List Cand :=
  dedupAux (allFound text ents) []

/-- Modelled from the spec's words, for comparison with `codeSnippet`:
"for pattern-based candidates, the 140 characters following the matched
span, with internal newlines collapsed to a single separator glyph,
truncated to 260 characters total". -/
def specSnippet (text : List Char) (_s e : Nat) : List Char :=
  (joinGlyph (splitlinesL (sliceL text e (e + 140)))).take 260

/-! ## Reconciler (`main`, lines 90 to 121)

The inner loop of `main` (lines 106 to 117) owns the dataset.  The
geopy geocoder is an external collaborator and enters as a pure
function from an address to an `Except`: a raised exception, no match,
or coordinates.  Coordinates are opaque to the pipeline (they are only
stored), so they are modelled as a pair of integers.  Observable
actions of the loop (resolver invocations and the politeness sleep) are
recorded in an event trace. -/

/-- A finalized record: the candidate dict after `r["lat"], r["lon"] =
coords` and `r["date_added"] = post["date"] or ""` (lines 112 to 113). -/
structure FinRec where
  name : List Char
  address : List Char
  blurb : List Char
  lat : Int
  lon : Int
  date_added : List Char
deriving DecidableEq, Repr

/-- The Reconciler's state: the accumulated dataset `known` and the
membership set `seen_addrs` (modelled as a list used only through
membership). -/
structure St where
  known : List FinRec
  seen : List (List Char)
deriving DecidableEq, Repr

/-- The Geocode Resolver boundary: address text to either a raised
exception (`Except.error`), no match (`.ok none`) or coordinates. -/
def Geo : Type := List Char → Except (List Char) (Option (Int × Int))

/-- Observable events of one run of the loop. -/
inductive Ev where
  /-- line 107: the candidate's address was already known -/
  | skip (addr : List Char)
  /-- line 109: the resolver was invoked; `ok` records whether it
  returned coordinates -/
  | resolve (addr : List Char) (ok : Bool)
  /-- line 117: `time.sleep(1)` -/
  | sleep
deriving DecidableEq, Repr

/-- `geocode` (lines 81 to 88): any exception and a `None` result are
both collapsed to `none`. -/
def geocode (g : Geo) (addr : List Char) : Option (Int × Int) :=
  match g addr with
  | .ok (some p) => some p
  | .ok none => none
  | .error _ => none

/-- Python `post["date"] or ""` (line 113). -/
def orEmpty (d : List Char) : List Char := if d.isEmpty then [] else d

/-- One iteration of the loop at lines 106 to 117 for candidate `r`. -/
def stepCand (g : Geo) (date : List Char) (st : St) (r : Cand) : St × List Ev :=
  if r.address ∈ st.seen then (st, [.skip r.address])
  else
    match geocode g r.address with
    | none => (st, [.resolve r.address false])
    | some (la, lo) =>
        ({ known := st.known ++
             [{ name := r.name, address := r.address, blurb := r.blurb,
                lat := la, lon := lo, date_added := orEmpty date }],
           seen := st.seen ++ [r.address] },
         [.resolve r.address true, .sleep])

/-- The loop at lines 106 to 117 over one extracted candidate list. -/
def reconcile (g : Geo) (date : List Char) : St → List Cand → St × List Ev
  | st, [] => (st, [])
  | st, c :: cs =>
      ((reconcile g date (stepCand g date st c).1 cs).1,
       (stepCand g date st c).2 ++ (reconcile g date (stepCand g date st c).1 cs).2)

/-- One post as the loop at lines 98 to 117 sees it: its raw published
date and the outcome of extraction (lines 99 to 104: an exception
inside `extract_restaurants_flexible` makes the post contribute no
candidates and the run continue). -/
structure PostX where
  date : List Char
  extracted : Except Unit (List Cand)

/-- The outer loop of `main` (lines 98 to 117). -/
def runPosts (g : Geo) : St → List PostX → St × List Ev
  | st, [] => (st, [])
  | st, p :: ps =>
      match p.extracted with
      | .error _ => runPosts g st ps
      | .ok cs =>
          ((runPosts g (reconcile g p.date st cs).1 ps).1,
           (reconcile g p.date st cs).2 ++
             (runPosts g (reconcile g p.date st cs).1 ps).2)

/-- `main` up to `save_cache` (lines 90 to 117): load the dataset,
initialise `seen_addrs` with its addresses (line 93), then run the
posts. -/
def runMain (g : Geo) (known0 : List FinRec) (posts : List PostX) : St × List Ev :=
  runPosts g { known := known0, seen := known0.map (fun r => r.address) } posts

/-- One feed entry at the `pull_posts` boundary (lines 33 to 39):
`title`, `published` and the value of the first content item, each
possibly absent. -/
structure Entry where
  title : Option (List Char)
  published : Option (List Char)
  contentValue : Option (List Char)

/-- A post dict as produced by `pull_posts`. -/
structure Post where
  title : List Char
  date : List Char
  content : List Char
deriving DecidableEq, Repr

/-- `pull_posts` (lines 33 to 39). -/
def pull_posts (es : List Entry) : List Post :=
  es.map (fun e =>
    { title := e.title.getD "Untitled".toList,
      date := e.published.getD [],
      content := e.contentValue.getD [] })

/-- `main`'s post loop fed from `pull_posts`, with extraction
abstracted as a function `extr` from the post to the outcome of
`extract_restaurants_flexible` on it. -/
def runFeed (g : Geo) (known0 : List FinRec) (es : List Entry)
    (extr : Post → Except Unit (List Cand)) : St × List Ev :=
  runMain g known0 ((pull_posts es).map (fun p => { date := p.date, extracted := extr p }))

/-- `save_cache` (lines 77 to 79), with the file-system semantics of
`CACHE_FILE.open("w")` made explicit: opening with mode `w` truncates
the file at once, `json.dump` then writes the serialization
incrementally (modelled as a chunk list), and an I/O failure after some
number of chunks raises an exception that `main` does not catch.  The
result is
the final on-disk content and whether a failure was surfaced; the first
argument is
the on-disk content before the call, on which the result does not
depend precisely because of the truncation. -/
def save_cache (_old : List Char) (chunks : List (List Char)) (failAfter : Option Nat) :
    List Char × Bool :=
  match failAfter with
  | none => (chunks.flatten, false)
  | some k => ((chunks.take k).flatten, true)

/-- The original politeness property as a decidable check over a trace:
between every two successive resolver invocations there is a sleep.
`pending` records that a resolver invocation has been seen with no
sleep since. -/
def delayedOk (pending : Bool) : List Ev → Bool
  | [] => true
  | .resolve _ _ :: r => if pending then false else delayedOk true r
  | .sleep :: r => delayedOk false r
  | .skip _ :: r => delayedOk pending r

/-- `seenCover st`: every address present in the dataset is in
`seen_addrs`.  Holds at `main`'s initialisation (line 93) and is
preserved by the loop. -/
def seenCover (st : St) : Prop :=
  ∀ a, a ∈ st.known.map (fun r => r.address) → a ∈ st.seen

/-! ## The shape of a run's event trace

Each loop iteration contributes one of three blocks to the trace: a
skip, a failing resolver invocation, or a successful resolver
invocation immediately followed by the politeness sleep.  `OkTr` is the
grammar of concatenations of such blocks. -/

/-- Traces that are concatenations of per-candidate blocks. -/
inductive OkTr : List Ev → Prop where
  | nil : OkTr []
  | skp (a : List Char) {t : List Ev} : OkTr t → OkTr (.skip a :: t)
  | fl (a : List Char) {t : List Ev} : OkTr t → OkTr (.resolve a false :: t)
  | okk (a : List Char) {t : List Ev} : OkTr t → OkTr (.resolve a true :: .sleep :: t)

/-! ## Concrete sample data used by witnesses and counterexamples -/

/-- A resolver that never finds a match. -/
def gNone : Geo := fun _ => Except.ok none

/-- A resolver that always returns the same coordinates. -/
def gFix : Geo := fun _ => Except.ok (some (40, -73))

/-- A resolver that always raises. -/
def gErr : Geo := fun _ => Except.error "network down".toList

/-- A sample candidate. -/
def cA : Cand := { name := "A".toList, address := "1 A St".toList, blurb := [] }

/-- Another sample candidate, with a different address. -/
def cB : Cand := { name := "B".toList, address := "2 B St".toList, blurb := [] }

/-- The empty starting state. -/
def emptySt : St := { known := [], seen := [] }

/-- A sample post list with one post and a duplicated candidate. -/
def samplePosts : List PostX :=
  [{ date := "Jan 1".toList, extracted := Except.ok [cA, cA, cB] }]

/-- A sample feed entry carrying a published date. -/
def sampleEntry : Entry :=
  { title := some "T".toList, published := some "Mon, 01 Jan".toList,
    contentValue := some "body".toList }

/-- Article text for the snippet counterexample: a bare numbered
street matched only by pattern 4, with nothing after the span. -/
def textC4 : List Char := "12 Main".toList

/-- The single candidate extracted from `textC4`. -/
def cand4 : Cand :=
  { name := "Unnamed".toList, address := "12 Main".toList, blurb := "12 Main".toList }

/-- Article text on which patterns 1 and 4 produce the same matched
span (hence the same address) and pattern 2 a shorter one. -/
def textC8 : List Char := "12 Main St, Brooklyn NY 11231".toList

/-- The candidate that wins the local dedup for the full span of
`textC8`. -/
def cand8 : Cand := { name := "Unnamed".toList, address := textC8, blurb := textC8 }

/-- Inert article text: no digits, no borough tokens. -/
def textC9 : List Char := "hello world".toList

/-- A sample entity inside `textC9`. -/
def entC9 : Ent := { label := "ORG".toList, text := "hello".toList }

/-! ## Structural lemmas about the Reconciler -/

theorem stepCand_skip (g : Geo) (date : List Char) (st : St) (r : Cand)
    (h : r.address ∈ st.seen) : stepCand g date st r = (st, [.skip r.address]) := by
  simp [stepCand, h]

theorem stepCand_fail (g : Geo) (date : List Char) (st : St) (r : Cand)
    (h1 : r.address ∉ st.seen) (h2 : geocode g r.address = none) :
    stepCand g date st r = (st, [.resolve r.address false]) := by
  simp [stepCand, h1, h2]

theorem stepCand_found (g : Geo) (date : List Char) (st : St) (r : Cand) (la lo : Int)
    (h1 : r.address ∉ st.seen) (h2 : geocode g r.address = some (la, lo)) :
    stepCand g date st r =
      ({ known := st.known ++
           [{ name := r.name, address := r.address, blurb := r.blurb,
              lat := la, lon := lo, date_added := orEmpty date }],
         seen := st.seen ++ [r.address] },
       [.resolve r.address true, .sleep]) := by
  simp [stepCand, h1, h2]

theorem stepCand_known_ext (g : Geo) (date : List Char) (st : St) (r : Cand) :
    ∃ t, (stepCand g date st r).1.known = st.known ++ t := by
  by_cases h1 : r.address ∈ st.seen
  · exact ⟨[], by rw [stepCand_skip g date st r h1]; simp⟩
  · cases h2 : geocode g r.address with
    | none => exact ⟨[], by rw [stepCand_fail g date st r h1 h2]; simp⟩
    | some p =>
        exact ⟨_, by rw [stepCand_found g date st r p.1 p.2 h1 (by simpa using h2)]⟩

theorem stepCand_seen_ext (g : Geo) (date : List Char) (st : St) (r : Cand) :
    ∃ t, (stepCand g date st r).1.seen = st.seen ++ t := by
  by_cases h1 : r.address ∈ st.seen
  · exact ⟨[], by rw [stepCand_skip g date st r h1]; simp⟩
  · cases h2 : geocode g r.address with
    | none => exact ⟨[], by rw [stepCand_fail g date st r h1 h2]; simp⟩
    | some p =>
        exact ⟨_, by rw [stepCand_found g date st r p.1 p.2 h1 (by simpa using h2)]⟩

theorem reconcile_known_ext (g : Geo) (date : List Char) :
    ∀ (cs : List Cand) (st : St), ∃ t, (reconcile g date st cs).1.known = st.known ++ t := by
  intro cs
  induction cs with
  | nil => exact fun st => ⟨[], by simp [reconcile]⟩
  | cons c cs ih =>
      intro st
      obtain ⟨t1, h1⟩ := stepCand_known_ext g date st c
      obtain ⟨t2, h2⟩ := ih (stepCand g date st c).1
      exact ⟨t1 ++ t2, by simp [reconcile, h2, h1]⟩

theorem reconcile_seen_ext (g : Geo) (date : List Char) :
    ∀ (cs : List Cand) (st : St), ∃ t, (reconcile g date st cs).1.seen = st.seen ++ t := by
  intro cs
  induction cs with
  | nil => exact fun st => ⟨[], by simp [reconcile]⟩
  | cons c cs ih =>
      intro st
      obtain ⟨t1, h1⟩ := stepCand_seen_ext g date st c
      obtain ⟨t2, h2⟩ := ih (stepCand g date st c).1
      exact ⟨t1 ++ t2, by simp [reconcile, h2, h1]⟩

theorem reconcile_seen_mono (g : Geo) (date : List Char) (cs : List Cand) (st : St)
    (a : List Char) (h : a ∈ st.seen) : a ∈ (reconcile g date st cs).1.seen := by
  obtain ⟨t, ht⟩ := reconcile_seen_ext g date cs st
  rw [ht]
  exact List.mem_append_left t h

theorem runPosts_known_ext (g : Geo) :
    ∀ (posts : List PostX) (st : St), ∃ t, (runPosts g st posts).1.known = st.known ++ t := by
  intro posts
  induction posts with
  | nil => exact fun st => ⟨[], by simp [runPosts]⟩
  | cons p ps ih =>
      intro st
      cases hp : p.extracted with
      | error e => simpa [runPosts, hp] using ih st
      | ok cs =>
          obtain ⟨t1, h1⟩ := reconcile_known_ext g p.date cs st
          obtain ⟨t2, h2⟩ := ih (reconcile g p.date st cs).1
          exact ⟨t1 ++ t2, by simp [runPosts, hp, h2, h1]⟩

theorem stepCand_cover (g : Geo) (date : List Char) (st : St) (r : Cand)
    (h : seenCover st) : seenCover (stepCand g date st r).1 := by
  by_cases h1 : r.address ∈ st.seen
  · rw [stepCand_skip g date st r h1]; exact h
  · cases h2 : geocode g r.address with
    | none => rw [stepCand_fail g date st r h1 h2]; exact h
    | some p =>
        rw [stepCand_found g date st r p.1 p.2 h1 (by simpa using h2)]
        intro a ha
        simp only [List.map_append, List.map_cons, List.map_nil, List.mem_append,
          List.mem_singleton] at ha
        rcases ha with ha | ha
        · exact List.mem_append_left _ (h a ha)
        · simp [ha]

theorem reconcile_cover (g : Geo) (date : List Char) :
    ∀ (cs : List Cand) (st : St), seenCover st → seenCover (reconcile g date st cs).1 := by
  intro cs
  induction cs with
  | nil => intro st h; simpa [reconcile] using h
  | cons c cs ih =>
      intro st h
      simp only [reconcile]
      exact ih _ (stepCand_cover g date st c h)

theorem runPosts_cover (g : Geo) :
    ∀ (posts : List PostX) (st : St), seenCover st → seenCover (runPosts g st posts).1 := by
  intro posts
  induction posts with
  | nil => intro st h; simpa [runPosts] using h
  | cons p ps ih =>
      intro st h
      cases hp : p.extracted with
      | error e => simpa [runPosts, hp] using ih st h
      | ok cs =>
          simp only [runPosts, hp]
          exact ih _ (reconcile_cover g p.date cs st h)

theorem stepCand_nodup (g : Geo) (date : List Char) (st : St) (r : Cand)
    (hc : seenCover st) (hn : (st.known.map (fun x => x.address)).Nodup) :
    ((stepCand g date st r).1.known.map (fun x => x.address)).Nodup := by
  by_cases h1 : r.address ∈ st.seen
  · rw [stepCand_skip g date st r h1]; exact hn
  · cases h2 : geocode g r.address with
    | none => rw [stepCand_fail g date st r h1 h2]; exact hn
    | some p =>
        rw [stepCand_found g date st r p.1 p.2 h1 (by simpa using h2)]
        simp only [List.map_append, List.map_cons, List.map_nil]
        rw [List.nodup_append]
        refine ⟨hn, List.nodup_singleton _, ?_⟩
        intro a ha hb
        simp only [List.mem_singleton] at hb
        subst hb
        exact h1 (hc _ ha)

theorem reconcile_nodup (g : Geo) (date : List Char) :
    ∀ (cs : List Cand) (st : St), seenCover st →
      (st.known.map (fun x => x.address)).Nodup →
      ((reconcile g date st cs).1.known.map (fun x => x.address)).Nodup := by
  intro cs
  induction cs with
  | nil => intro st _ hn; simpa [reconcile] using hn
  | cons c cs ih =>
      intro st hc hn
      simp only [reconcile]
      exact ih _ (stepCand_cover g date st c hc) (stepCand_nodup g date st c hc hn)

theorem runPosts_nodup (g : Geo) :
    ∀ (posts : List PostX) (st : St), seenCover st →
      (st.known.map (fun x => x.address)).Nodup →
      ((runPosts g st posts).1.known.map (fun x => x.address)).Nodup := by
  intro posts
  induction posts with
  | nil => intro st _ hn; simpa [runPosts] using hn
  | cons p ps ih =>
      intro st hc hn
      cases hp : p.extracted with
      | error e => simpa [runPosts, hp] using ih st hc hn
      | ok cs =>
          simp only [runPosts, hp]
          exact ih _ (reconcile_cover g p.date cs st hc) (reconcile_nodup g p.date cs st hc hn)

theorem reconcile_covers_cands (g : Geo) (date : List Char) :
    ∀ (cs : List Cand) (st : St) (c : Cand), c ∈ cs →
      c.address ∈ (reconcile g date st cs).1.seen ∨ geocode g c.address = none := by
  intro cs
  induction cs with
  | nil => intro st c hc; cases hc
  | cons d cs ih =>
      intro st c hc
      rcases List.mem_cons.mp hc with rfl | hc
      · by_cases h1 : c.address ∈ st.seen
        · left
          simp only [reconcile]
          refine reconcile_seen_mono g date cs _ _ ?_
          rw [stepCand_skip g date st c h1]
          exact h1
        · cases h2 : geocode g c.address with
          | none => exact Or.inr rfl
          | some p =>
              left
              simp only [reconcile]
              refine reconcile_seen_mono g date cs _ _ ?_
              rw [stepCand_found g date st c p.1 p.2 h1 (by simpa using h2)]
              simp
      · simp only [reconcile]
        exact ih _ c hc

theorem reconcile_noop (g : Geo) (date : List Char) :
    ∀ (cs : List Cand) (st : St),
      (∀ c ∈ cs, c.address ∈ st.seen ∨ geocode g c.address = none) →
      (reconcile g date st cs).1 = st := by
  intro cs
  induction cs with
  | nil => intro st _; simp [reconcile]
  | cons c cs ih =>
      intro st h
      have hstep : (stepCand g date st c).1 = st := by
        rcases h c (List.mem_cons_self c cs) with h1 | h2
        · rw [stepCand_skip g date st c h1]
        · by_cases h1 : c.address ∈ st.seen
          · rw [stepCand_skip g date st c h1]
          · rw [stepCand_fail g date st c h1 h2]
      simp only [reconcile, hstep]
      exact ih st (fun d hd => h d (List.mem_cons_of_mem c hd))

theorem reconcile_resolve_not_seen (g : Geo) (date : List Char) :
    ∀ (cs : List Cand) (st : St) (a : List Char) (ok : Bool),
      Ev.resolve a ok ∈ (reconcile g date st cs).2 → a ∉ st.seen := by
  intro cs
  induction cs with
  | nil => intro st a ok h; simp [reconcile] at h
  | cons c cs ih =>
      intro st a ok h
      simp only [reconcile, List.mem_append] at h
      rcases h with h | h
      · by_cases h1 : c.address ∈ st.seen
        · rw [stepCand_skip g date st c h1] at h
          simp at h
        · cases h2 : geocode g c.address with
          | none =>
              rw [stepCand_fail g date st c h1 h2] at h
              simp only [List.mem_singleton, Ev.resolve.injEq] at h
              rw [h.1]; exact h1
          | some p =>
              rw [stepCand_found g date st c p.1 p.2 h1 (by simpa using h2)] at h
              simp only [List.mem_cons, List.mem_singleton] at h
              rcases h with h | h | h
              · rw [(Ev.resolve.injEq _ _ _ _).mp h |>.1]; exact h1
              · simp at h
              · simp at h
      · intro ha
        obtain ⟨t, ht⟩ := stepCand_seen_ext g date st c
        exact ih _ a ok h (ht ▸ List.mem_append_left t ha)

theorem stepCand_dates (g : Geo) (date : List Char) (st : St) (r : Cand) :
    ∃ t, (stepCand g date st r).1.known = st.known ++ t ∧
      ∀ x ∈ t, x.date_added = orEmpty date := by
  by_cases h1 : r.address ∈ st.seen
  · exact ⟨[], by rw [stepCand_skip g date st r h1]; simp⟩
  · cases h2 : geocode g r.address with
    | none => exact ⟨[], by rw [stepCand_fail g date st r h1 h2]; simp⟩
    | some p =>
        refine ⟨_, by rw [stepCand_found g date st r p.1 p.2 h1 (by simpa using h2)], ?_⟩
        intro x hx
        simp only [List.mem_singleton] at hx
        rw [hx]

theorem reconcile_dates (g : Geo) (date : List Char) :
    ∀ (cs : List Cand) (st : St),
      ∃ t, (reconcile g date st cs).1.known = st.known ++ t ∧
        ∀ x ∈ t, x.date_added = orEmpty date := by
  intro cs
  induction cs with
  | nil => exact fun st => ⟨[], by simp [reconcile], by simp⟩
  | cons c cs ih =>
      intro st
      obtain ⟨t1, h1, hd1⟩ := stepCand_dates g date st c
      obtain ⟨t2, h2, hd2⟩ := ih (stepCand g date st c).1
      refine ⟨t1 ++ t2, by simp [reconcile, h2, h1], ?_⟩
      intro x hx
      rcases List.mem_append.mp hx with hx | hx
      · exact hd1 x hx
      · exact hd2 x hx

theorem runPosts_dates (g : Geo) :
    ∀ (posts : List PostX) (st : St),
      ∃ t, (runPosts g st posts).1.known = st.known ++ t ∧
        ∀ x ∈ t, ∃ p ∈ posts, x.date_added = orEmpty p.date := by
  intro posts
  induction posts with
  | nil => exact fun st => ⟨[], by simp [runPosts], by simp⟩
  | cons p ps ih =>
      intro st
      cases hp : p.extracted with
      | error e =>
          obtain ⟨t, ht, hd⟩ := ih st
          refine ⟨t, by simpa [runPosts, hp] using ht, ?_⟩
          intro x hx
          obtain ⟨q, hq, hqd⟩ := hd x hx
          exact ⟨q, List.mem_cons_of_mem p hq, hqd⟩
      | ok cs =>
          obtain ⟨t1, h1, hd1⟩ := reconcile_dates g p.date cs st
          obtain ⟨t2, h2, hd2⟩ := ih (reconcile g p.date st cs).1
          refine ⟨t1 ++ t2, by simp [runPosts, hp, h2, h1], ?_⟩
          intro x hx
          rcases List.mem_append.mp hx with hx | hx
          · exact ⟨p, List.mem_cons_self p ps, hd1 x hx⟩
          · obtain ⟨q, hq, hqd⟩ := hd2 x hx
            exact ⟨q, List.mem_cons_of_mem p hq, hqd⟩

theorem orEmpty_eq (d : List Char) : orEmpty d = d := by
  cases d with
  | nil => rfl
  | cons c r => rfl

theorem OkTr.append {s t : List Ev} (hs : OkTr s) (ht : OkTr t) : OkTr (s ++ t) := by
  induction hs with
  | nil => simpa using ht
  | skp a _ ih => exact OkTr.skp a ih
  | fl a _ ih => exact OkTr.fl a ih
  | okk a _ ih => exact OkTr.okk a ih

theorem stepCand_okTr (g : Geo) (date : List Char) (st : St) (r : Cand) :
    OkTr (stepCand g date st r).2 := by
  by_cases h1 : r.address ∈ st.seen
  · rw [stepCand_skip g date st r h1]
    exact OkTr.skp _ OkTr.nil
  · cases h2 : geocode g r.address with
    | none =>
        rw [stepCand_fail g date st r h1 h2]
        exact OkTr.fl _ OkTr.nil
    | some p =>
        rw [stepCand_found g date st r p.1 p.2 h1 (by simpa using h2)]
        exact OkTr.okk _ OkTr.nil

theorem reconcile_okTr (g : Geo) (date : List Char) :
    ∀ (cs : List Cand) (st : St), OkTr (reconcile g date st cs).2 := by
  intro cs
  induction cs with
  | nil => intro st; simpa [reconcile] using OkTr.nil
  | cons c cs ih =>
      intro st
      simp only [reconcile]
      exact OkTr.append (stepCand_okTr g date st c) (ih _)

theorem runPosts_okTr (g : Geo) :
    ∀ (posts : List PostX) (st : St), OkTr (runPosts g st posts).2 := by
  intro posts
  induction posts with
  | nil => intro st; simpa [runPosts] using OkTr.nil
  | cons p ps ih =>
      intro st
      cases hp : p.extracted with
      | error e => simpa [runPosts, hp] using ih st
      | ok cs =>
          simp only [runPosts, hp]
          exact OkTr.append (reconcile_okTr g p.date cs st) (ih _)

theorem OkTr.sleep_iff {evs : List Ev} (h : OkTr evs) :
    ∀ i, evs[i]? = some Ev.sleep ↔
      ∃ a, 1 ≤ i ∧ evs[i - 1]? = some (Ev.resolve a true) := by
  induction h with
  | nil => intro i; simp
  | @skp a t ht ih =>
      intro i
      match i with
      | 0 => simp
      | 1 =>
          simp only [List.getElem?_cons_succ, List.getElem?_cons_zero]
          rw [ih 0]
          simp
      | n + 2 =>
          simp only [List.getElem?_cons_succ]
          rw [ih (n + 1)]
          simp
  | @fl a t ht ih =>
      intro i
      match i with
      | 0 => simp
      | 1 =>
          simp only [List.getElem?_cons_succ, List.getElem?_cons_zero]
          rw [ih 0]
          simp
      | n + 2 =>
          simp only [List.getElem?_cons_succ]
          rw [ih (n + 1)]
          simp
  | @okk a t ht ih =>
      intro i
      match i with
      | 0 => simp
      | 1 => simp
      | 2 =>
          simp only [List.getElem?_cons_succ, List.getElem?_cons_zero]
          rw [ih 0]
          simp
      | n + 3 =>
          simp only [List.getElem?_cons_succ]
          rw [ih (n + 1)]
          simp

/-! ## Claim theorems: Reconciler -/

/-- Claim C1: reconciliation is idempotent with respect to
address_text.  With a deterministic resolver (a pure function here),
running the loop a second time on the same candidate sequence against
the dataset produced by the first run leaves the state unchanged — no
record is appended — and no resolver invocation of the second run
concerns an address already present in the dataset. -/
theorem C1_reconcile_idempotent (g : Geo) (date : List Char) (d0 : List FinRec)
    (cs : List Cand) :
    (reconcile g date
        (reconcile g date { known := d0, seen := d0.map (fun r => r.address) } cs).1 cs).1 =
      (reconcile g date { known := d0, seen := d0.map (fun r => r.address) } cs).1 ∧
    ∀ a ok, Ev.resolve a ok ∈
        (reconcile g date
          (reconcile g date { known := d0, seen := d0.map (fun r => r.address) } cs).1 cs).2 →
      a ∉ (reconcile g date { known := d0, seen := d0.map (fun r => r.address) } cs).1.known.map
            (fun r => r.address) := by
  constructor
  · exact reconcile_noop g date cs _
      (fun c hc => reconcile_covers_cands g date cs _ c hc)
  · intro a ok h hmem
    have hns : a ∉ (reconcile g date
        { known := d0, seen := d0.map (fun r => r.address) } cs).1.seen :=
      reconcile_resolve_not_seen g date cs _ a ok h
    exact hns (reconcile_cover g date cs _ (fun b hb => hb) a hmem)

/-- Witness for C1 at a concrete resolver, dataset and candidate
sequence. -/
theorem C1_witness :
    (reconcile gFix "d".toList
        (reconcile gFix "d".toList { known := [], seen := [] } [cA, cB]).1 [cA, cB]).1 =
      (reconcile gFix "d".toList { known := [], seen := [] } [cA, cB]).1 :=
  (C1_reconcile_idempotent gFix "d".toList [] [cA, cB]).1

/-- Claim C2: if no two records of the starting dataset share
`address_text`, then no two records of the final dataset do. -/
theorem C2_address_unique (g : Geo) (known0 : List FinRec) (posts : List PostX)
    (h : (known0.map (fun r => r.address)).Nodup) :
    ((runMain g known0 posts).1.known.map (fun r => r.address)).Nodup := by
  simp only [runMain]
  exact runPosts_nodup g posts _ (fun a ha => ha) h

/-- Witness for C2 at a concrete run from the empty dataset, with a
duplicated candidate in the feed. -/
theorem C2_witness :
    ((runMain gFix [] samplePosts).1.known.map (fun r => r.address)).Nodup :=
  C2_address_unique gFix [] samplePosts (by decide)

/-- Claim C3: the loop only ever appends: the final dataset is the
loaded dataset followed by the newly finalized records, so every
previously finalized record is still present, unchanged and in place. -/
theorem C3_append_only (g : Geo) (known0 : List FinRec) (posts : List PostX) :
    ∃ t, (runMain g known0 posts).1.known = known0 ++ t := by
  simp only [runMain]
  exact runPosts_known_ext g posts _

/-- Witness for C3 at a concrete run. -/
theorem C3_witness :
    ∃ t, (runMain gFix [] samplePosts).1.known = [] ++ t :=
  C3_append_only gFix [] samplePosts

/-- Claim C5, counterexample to the claim as stated: with a resolver
that finds no match, two successive resolver invocations occur with no
sleep between them (the trace contains no sleep at all), because
`time.sleep(1)` at line 117 runs only after a successful geocode.  The
delay is therefore not enforced between every two successive resolver
invocations. -/
theorem C5_counterexample :
    (reconcile gNone [] emptySt [cA, cB]).2 =
      [Ev.resolve cA.address false, Ev.resolve cB.address false] ∧
    delayedOk false (reconcile gNone [] emptySt [cA, cB]).2 = false := by
  decide

/-- Claim C5, amended: in any run's trace, a sleep occurs exactly at
the positions immediately following a successful resolver invocation;
in particular failing invocations and skipped candidates are never
followed by the delay. -/
theorem C5_delay_after_success (g : Geo) (known0 : List FinRec) (posts : List PostX)
    (i : Nat) :
    ((runMain g known0 posts).2)[i]? = some Ev.sleep ↔
      ∃ a, 1 ≤ i ∧ ((runMain g known0 posts).2)[i - 1]? = some (Ev.resolve a true) :=
  OkTr.sleep_iff (runPosts_okTr g posts _) i

/-- Witness for C5 at a concrete run: position 1 of the trace is the
sleep following the successful invocation at position 0. -/
theorem C5_witness :
    ((runMain gFix [] samplePosts).2)[1]? = some Ev.sleep :=
  (C5_delay_after_success gFix [] samplePosts 1).mpr ⟨cA.address, by decide, by decide⟩

/-- Claim C6, counterexample to the claim as stated: a failure during
`json.dump` is surfaced, but the prior on-disk state does not remain
untouched — `CACHE_FILE.open("w")` truncates the file before anything
is written, so failing after zero chunks leaves an empty file instead
of the prior content. -/
theorem C6_counterexample :
    (save_cache "old".toList ["new".toList] (some 0)).2 = true ∧
    (save_cache "old".toList ["new".toList] (some 0)).1 = [] ∧
    "old".toList ≠ ([] : List Char) := by
  decide

/-- Claim C6, amended: if persisting fails, the failure is surfaced to
the caller, but the on-disk state after the failure is the
already-written leading part of the new serialization (possibly empty),
not the prior content. -/
theorem C6_surfaced_truncation (old : List Char) (chunks : List (List Char)) (k : Nat) :
    (save_cache old chunks (some k)).2 = true ∧
    ∃ t, chunks.flatten = (save_cache old chunks (some k)).1 ++ t := by
  refine ⟨rfl, (chunks.drop k).flatten, ?_⟩
  show chunks.flatten = (chunks.take k).flatten ++ (chunks.drop k).flatten
  rw [← List.flatten_append, List.take_append_drop]

/-- Witness for C6 at a concrete serialization and failure point. -/
theorem C6_witness :
    (save_cache "old".toList ["ne".toList, "w!".toList] (some 1)).2 = true ∧
    ∃ t, (["ne".toList, "w!".toList] : List (List Char)).flatten =
      (save_cache "old".toList ["ne".toList, "w!".toList] (some 1)).1 ++ t :=
  C6_surfaced_truncation "old".toList ["ne".toList, "w!".toList] 1

/-- Claim C7: a candidate whose address fails to resolve — no match
and raised exceptions are treated identically by `geocode` — causes
exactly one resolver invocation, no state change and no exception
(`stepCand` returns normally), and removing such a candidate from the
sequence does not change the final state, so it is never retried
within the run. -/
theorem C7_resolver_isolation (g : Geo) (date : List Char) (st : St) (c : Cand)
    (cs1 cs2 : List Cand)
    (h : g c.address = Except.ok none ∨ ∃ e, g c.address = Except.error e) :
    (c.address ∉ st.seen → stepCand g date st c = (st, [Ev.resolve c.address false])) ∧
    (reconcile g date st (cs1 ++ c :: cs2)).1 = (reconcile g date st (cs1 ++ cs2)).1 := by
  have hg : geocode g c.address = none := by
    rcases h with h | ⟨e, he⟩
    · simp [geocode, h]
    · simp [geocode, he]
  constructor
  · intro h1
    exact stepCand_fail g date st c h1 hg
  · induction cs1 generalizing st with
    | nil =>
        simp only [List.nil_append, reconcile]
        have hstep : (stepCand g date st c).1 = st := by
          by_cases h1 : c.address ∈ st.seen
          · rw [stepCand_skip g date st c h1]
          · rw [stepCand_fail g date st c h1 hg]
        rw [hstep]
    | cons d cs1 ih =>
        simp only [List.cons_append, reconcile]
        exact ih _

/-- Witness for C7 at a concrete erroring resolver. -/
theorem C7_witness :
    stepCand gErr [] emptySt cA = (emptySt, [Ev.resolve cA.address false]) ∧
    (reconcile gErr [] emptySt ([cB] ++ cA :: [])).1 =
      (reconcile gErr [] emptySt ([cB] ++ [])).1 := by
  have h := C7_resolver_isolation gErr [] emptySt cA [cB] []
    (Or.inr ⟨"network down".toList, rfl⟩)
  exact ⟨h.1 (by decide), h.2⟩

/-- Claim C10: every record appended during a run carries as
`date_added` the raw published-date text of its source feed entry, or
the empty string when the entry has no published date (`pull_posts`
defaults it and line 113 keeps it); no clock enters the computation. -/
theorem C10_date_policy (g : Geo) (known0 : List FinRec) (es : List Entry)
    (extr : Post → Except Unit (List Cand)) :
    ∃ t, (runFeed g known0 es extr).1.known = known0 ++ t ∧
      ∀ r ∈ t, ∃ en ∈ es, r.date_added = en.published.getD [] := by
  simp only [runFeed, runMain]
  obtain ⟨t, ht, hd⟩ := runPosts_dates g
    ((pull_posts es).map (fun p => { date := p.date, extracted := extr p })) _
  refine ⟨t, ht, ?_⟩
  intro r hr
  obtain ⟨p, hp, hpd⟩ := hd r hr
  obtain ⟨q, hq, rfl⟩ := List.mem_map.mp hp
  simp only [pull_posts] at hq
  obtain ⟨en, hen, rfl⟩ := List.mem_map.mp hq
  refine ⟨en, hen, ?_⟩
  rw [hpd, orEmpty_eq]

/-- Witness for C10. -/
theorem C10_witness :
    ∃ t, (runFeed gFix [] [sampleEntry] (fun _ => Except.ok [cA])).1.known = [] ++ t ∧
      ∀ r ∈ t, ∃ en ∈ [sampleEntry], r.date_added = en.published.getD [] :=
  C10_date_policy gFix [] [sampleEntry] (fun _ => Except.ok [cA])

/-! ## Lemmas about string occurrence -/

theorem ciStarts_ciHas {w s : List Char} (h : ciStarts w s = true) : ciHas w s = true := by
  unfold ciHas
  rw [List.any_eq_true]
  exact ⟨0, List.mem_range.mpr (by omega), by simpa using h⟩

theorem has_of_starts_drop_ci {w s : List Char} {n : Nat}
    (h : ciStarts w (s.drop n) = true) : ciHas w s = true := by
  have hdrop : s.drop (min n s.length) = s.drop n := by
    rcases Nat.le_total n s.length with hle | hle
    · rw [Nat.min_eq_left hle]
    · rw [Nat.min_eq_right hle, List.drop_eq_nil_of_le hle,
        List.drop_eq_nil_of_le (Nat.le_refl _)]
  unfold ciHas
  rw [List.any_eq_true]
  exact ⟨min n s.length, List.mem_range.mpr (by omega), by rw [hdrop]; exact h⟩

theorem has_of_starts_drop_cs {w s : List Char} {n : Nat}
    (h : csStarts w (s.drop n) = true) : csHas w s = true := by
  have hdrop : s.drop (min n s.length) = s.drop n := by
    rcases Nat.le_total n s.length with hle | hle
    · rw [Nat.min_eq_left hle]
    · rw [Nat.min_eq_right hle, List.drop_eq_nil_of_le hle,
        List.drop_eq_nil_of_le (Nat.le_refl _)]
  unfold csHas
  rw [List.any_eq_true]
  exact ⟨min n s.length, List.mem_range.mpr (by omega), by rw [hdrop]; exact h⟩

theorem ciHas_drop {w s : List Char} {n : Nat} (h : ciHas w (s.drop n) = true) :
    ciHas w s = true := by
  unfold ciHas at h
  rw [List.any_eq_true] at h
  obtain ⟨m, _, hm⟩ := h
  rw [List.drop_drop] at hm
  exact has_of_starts_drop_ci hm

theorem csStarts_ciStarts : ∀ {w s : List Char}, csStarts w s = true → ciStarts w s = true
  | [], _, _ => rfl
  | _ :: _, [], h => by simp [csStarts] at h
  | a :: as, b :: bs, h => by
      simp only [csStarts, Bool.and_eq_true, decide_eq_true_eq] at h
      simp only [ciStarts, Bool.and_eq_true]
      exact ⟨by simp [ciEq, h.1], csStarts_ciStarts h.2⟩

theorem csStarts_drop : ∀ (m : Nat) {t v : List Char}, csStarts t v = true →
    csStarts (t.drop m) (v.drop m) = true
  | 0, _, _, h => h
  | _ + 1, [], _, _ => rfl
  | _ + 1, _ :: _, [], h => by simp [csStarts] at h
  | m + 1, _ :: as, _ :: bs, h => by
      simp only [csStarts, Bool.and_eq_true] at h
      simpa using csStarts_drop m h.2

theorem csStarts_trans : ∀ {b u v : List Char}, csStarts b u = true →
    csStarts u v = true → csStarts b v = true
  | [], _, _, _, _ => rfl
  | _ :: _, [], _, h, _ => by simp [csStarts] at h
  | _ :: _, _ :: _, [], _, h2 => by simp [csStarts] at h2
  | a :: as, b :: bs, c :: cs, h1, h2 => by
      simp only [csStarts, Bool.and_eq_true, decide_eq_true_eq] at h1 h2
      simp only [csStarts, Bool.and_eq_true, decide_eq_true_eq]
      exact ⟨h1.1.trans h2.1, csStarts_trans h1.2 h2.2⟩

theorem csStarts_subset : ∀ {t v : List Char}, csStarts t v = true → ∀ c ∈ t, c ∈ v
  | [], _, _, c, hc => absurd hc (List.not_mem_nil c)
  | _ :: _, [], h, _, _ => by simp [csStarts] at h
  | a :: as, b :: bs, h, c, hc => by
      simp only [csStarts, Bool.and_eq_true, decide_eq_true_eq] at h
      rcases List.mem_cons.mp hc with rfl | hc
      · rw [h.1]; exact List.mem_cons_self _ _
      · exact List.mem_cons_of_mem _ (csStarts_subset h.2 c hc)

theorem subList_mem {t s : List Char} (h : subList t s = true) {c : Char} (hc : c ∈ t) :
    c ∈ s := by
  unfold subList csHas at h
  rw [List.any_eq_true] at h
  obtain ⟨n, _, hts⟩ := h
  exact List.drop_subset n s (csStarts_subset hts c hc)

theorem csHas_trans {b t s : List Char} (h1 : csHas b t = true) (h2 : subList t s = true) :
    csHas b s = true := by
  unfold csHas at h1
  rw [List.any_eq_true] at h1
  obtain ⟨m, _, hbs⟩ := h1
  unfold subList csHas at h2
  rw [List.any_eq_true] at h2
  obtain ⟨n, _, hts⟩ := h2
  have h3 : csStarts (t.drop m) (s.drop (n + m)) = true := by
    have h4 := csStarts_drop m hts
    rwa [List.drop_drop] at h4
  exact has_of_starts_drop_cs (csStarts_trans hbs h3)

theorem csHas_ciHas {b s : List Char} (h : csHas b s = true) : ciHas b s = true := by
  unfold csHas at h
  rw [List.any_eq_true] at h
  obtain ⟨n, _, hb⟩ := h
  exact has_of_starts_drop_ci (csStarts_ciStarts hb)

/-! ## Lemmas about the regex engine -/

theorem atomNexts_drop {a : Atom} {s s2 : List Char} (h : s2 ∈ atomNexts a s) :
    ∃ n, s2 = s.drop n := by
  cases a with
  | one p =>
      cases s with
      | nil => simp [atomNexts] at h
      | cons c r =>
          simp only [atomNexts] at h
          by_cases hp : p c
          · simp only [if_pos hp, List.mem_singleton] at h
            exact ⟨1, by simp [h]⟩
          · simp [if_neg hp] at h
  | opt p =>
      cases s with
      | nil =>
          simp only [atomNexts, List.mem_singleton] at h
          exact ⟨0, by simp [h]⟩
      | cons c r =>
          simp only [atomNexts] at h
          by_cases hp : p c
          · simp only [if_pos hp, List.mem_cons, List.mem_singleton] at h
            rcases h with h | h | h
            · exact ⟨1, by simp [h]⟩
            · exact ⟨0, by simp [h]⟩
            · cases h
          · simp only [if_neg hp, List.mem_singleton] at h
            exact ⟨0, by simp [h]⟩
  | plus p =>
      simp only [atomNexts, List.mem_map] at h
      obtain ⟨i, _, hi⟩ := h
      exact ⟨_, hi.symm⟩
  | star p =>
      simp only [atomNexts, List.mem_map] at h
      obtain ⟨i, _, hi⟩ := h
      exact ⟨_, hi.symm⟩
  | rep p lo hi =>
      simp only [atomNexts] at h
      split at h
      · simp at h
      · simp only [List.mem_map] at h
        obtain ⟨i, _, hi⟩ := h
        exact ⟨_, hi.symm⟩
  | lit w =>
      simp only [atomNexts] at h
      split at h
      · simp only [List.mem_singleton] at h
        exact ⟨w.length, h⟩
      · simp at h
  | alts ws =>
      simp only [atomNexts, List.mem_filterMap] at h
      obtain ⟨w, _, hw⟩ := h
      split at hw
      · exact ⟨w.length, (Option.some.inj hw).symm⟩
      · cases hw

theorem seqMatch_alts_ciHas : ∀ (as : List Atom) (ws s r : _),
    seqMatch as s = some r → Atom.alts ws ∈ as → ∃ w ∈ ws, ciHas w s = true := by
  intro as
  induction as with
  | nil => intro ws s r _ hmem; cases hmem
  | cons a as ih =>
      intro ws s r hsm hmem
      simp only [seqMatch] at hsm
      obtain ⟨s2, hs2, hsm2⟩ := List.exists_of_findSome?_eq_some hsm
      rcases List.mem_cons.mp hmem with rfl | hmem
      · simp only [atomNexts, List.mem_filterMap] at hs2
        obtain ⟨w, hw, hcond⟩ := hs2
        cases hci : ciStarts w s with
        | true => exact ⟨w, hw, ciStarts_ciHas hci⟩
        | false => rw [hci] at hcond; simp at hcond
      · obtain ⟨w, hw, hciw⟩ := ih ws s2 r hsm2 hmem
        obtain ⟨n, rfl⟩ := atomNexts_drop hs2
        exact ⟨w, hw, ciHas_drop hciw⟩

theorem seqMatch_rep_none (p : Char → Bool) (hi : Nat) (as : List Atom) (s : List Char)
    (h : ∀ c ∈ s, p c = false) : seqMatch (Atom.rep p 1 hi :: as) s = none := by
  have hr : runLen p s = 0 := by
    cases s with
    | nil => rfl
    | cons c r => simp [runLen, h c (List.mem_cons_self c r)]
  simp [seqMatch, atomNexts, hr]

theorem finditerAux_nil (pat : List Atom) (text : List Char)
    (h : ∀ pos, seqMatch pat (text.drop pos) = none) :
    ∀ fuel pos, finditerAux pat text pos fuel = [] := by
  intro fuel
  induction fuel with
  | zero => intro pos; rfl
  | succ fuel ih =>
      intro pos
      rw [finditerAux]
      by_cases hp : pos > text.length
      · simp [hp]
      · simp only [if_neg hp, h pos]
        exact ih (pos + 1)

theorem finditer_nil (pat : List Atom) (text : List Char)
    (h : ∀ pos, seqMatch pat (text.drop pos) = none) : finditer pat text = [] :=
  finditerAux_nil pat text h _ 0

/-! ## Lemmas about the dedup loop -/

theorem dedupAux_subset : ∀ (l : List Cand) (seen : List (List Char)) (c : Cand),
    c ∈ dedupAux l seen → c ∈ l
  | [], _, c, h => absurd h (List.not_mem_nil c)
  | r :: rest, seen, c, h => by
      by_cases hseen : r.address ∈ seen
      · simp only [dedupAux, if_pos hseen] at h
        exact List.mem_cons_of_mem r (dedupAux_subset rest seen c h)
      · simp only [dedupAux, if_neg hseen] at h
        rcases List.mem_cons.mp h with rfl | h
        · exact List.mem_cons_self _ _
        · exact List.mem_cons_of_mem r (dedupAux_subset rest _ c h)

theorem dedupAux_not_seen : ∀ (l : List Cand) (seen : List (List Char)) (c : Cand),
    c ∈ dedupAux l seen → c.address ∉ seen
  | [], _, c, h => absurd h (List.not_mem_nil c)
  | r :: rest, seen, c, h => by
      by_cases hseen : r.address ∈ seen
      · simp only [dedupAux, if_pos hseen] at h
        exact dedupAux_not_seen rest seen c h
      · simp only [dedupAux, if_neg hseen] at h
        rcases List.mem_cons.mp h with rfl | h
        · exact hseen
        · intro hc
          exact dedupAux_not_seen rest _ c h (List.mem_cons_of_mem _ hc)

theorem dedupAux_nodup : ∀ (l : List Cand) (seen : List (List Char)),
    ((dedupAux l seen).map (fun c => c.address)).Nodup
  | [], _ => by simp [dedupAux]
  | r :: rest, seen => by
      by_cases hseen : r.address ∈ seen
      · simp only [dedupAux, if_pos hseen]
        exact dedupAux_nodup rest seen
      · simp only [dedupAux, if_neg hseen, List.map_cons, List.nodup_cons]
        refine ⟨?_, dedupAux_nodup rest _⟩
        intro hmem
        simp only [List.mem_map] at hmem
        obtain ⟨c, hc, hca⟩ := hmem
        exact dedupAux_not_seen rest _ c hc (by rw [hca]; exact List.mem_cons_self _ _)

theorem dedupAux_find : ∀ (l : List Cand) (seen : List (List Char)) (c : Cand),
    c ∈ dedupAux l seen → l.find? (fun x => x.address == c.address) = some c
  | [], _, c, h => absurd h (List.not_mem_nil c)
  | r :: rest, seen, c, h => by
      by_cases hseen : r.address ∈ seen
      · simp only [dedupAux, if_pos hseen] at h
        have hne : ¬ (r.address == c.address) = true := by
          rw [beq_iff_eq]
          intro he
          exact dedupAux_not_seen rest seen c h (he ▸ hseen)
        rw [List.find?_cons_of_neg (p := fun x => x.address == c.address) rest hne]
        exact dedupAux_find rest seen c h
      · simp only [dedupAux, if_neg hseen] at h
        rcases List.mem_cons.mp h with rfl | h
        · rw [List.find?_cons_of_pos _ (by rw [beq_iff_eq])]
        · have hne : ¬ (r.address == c.address) = true := by
            rw [beq_iff_eq]
            intro he
            exact dedupAux_not_seen rest _ c h (he ▸ List.mem_cons_self _ _)
          rw [List.find?_cons_of_neg (p := fun x => x.address == c.address) rest hne]
          exact dedupAux_find rest _ c h

theorem dedupAux_complete : ∀ (l : List Cand) (seen : List (List Char)) (c : Cand),
    c ∈ l → c.address ∉ seen → ∃ c2 ∈ dedupAux l seen, c2.address = c.address
  | [], _, c, h, _ => absurd h (List.not_mem_nil c)
  | r :: rest, seen, c, h, hns => by
      by_cases hseen : r.address ∈ seen
      · simp only [dedupAux, if_pos hseen]
        rcases List.mem_cons.mp h with rfl | h
        · exact absurd hseen hns
        · exact dedupAux_complete rest seen c h hns
      · simp only [dedupAux, if_neg hseen]
        rcases List.mem_cons.mp h with rfl | h
        · exact ⟨c, List.mem_cons_self _ _, rfl⟩
        · by_cases hca : c.address = r.address
          · exact ⟨r, List.mem_cons_self _ _, hca.symm⟩
          · obtain ⟨c2, hc2, hc2a⟩ := dedupAux_complete rest (r.address :: seen) c h
              (by simp [hca, hns])
            exact ⟨c2, List.mem_cons_of_mem _ hc2, hc2a⟩

/-! ## Lemmas about the extractor's output -/

theorem mem_patternFound {text : List Char} {c : Cand} (h : c ∈ patternFound text) :
    ∃ p ∈ ADDRESS_PATTERNS, ∃ se ∈ finditer p text, c = mkPatCand text se := by
  simp only [patternFound, List.mem_flatMap, List.mem_map] at h
  obtain ⟨p, hp, se, hse, hc⟩ := h
  exact ⟨p, hp, se, hse, hc.symm⟩

theorem mem_nerFound {ents : List Ent} {c : Cand} (h : c ∈ nerFound ents) :
    c.blurb = [] := by
  simp only [nerFound, List.mem_filterMap] at h
  obtain ⟨en, _, hc⟩ := h
  split at hc
  · have hh := Option.some.inj hc
    subst hh
    rfl
  · cases hc

/-! ## Claim theorems: Extractor -/

/-- Claim C4, counterexample to the claim as stated: on the article
text `12 Main` the only match is pattern 4 with span `[0, 7)`; the
extracted candidate's blurb is the matched span itself (the slice at
line 52 starts at `match.start()`, not at `match.end()`), whereas the
claimed snippet — the 140 characters following the span — is empty. -/
theorem C4_counterexample :
    extract_restaurants_flexible textC4 [] = [cand4] ∧
    finditer pat4 textC4 = [(0, 7)] ∧
    specSnippet textC4 0 7 = [] ∧
    cand4.blurb ≠ specSnippet textC4 0 7 := by
  decide

/-- Claim C4, amended: every pattern-based candidate's blurb is the
matched span together with the 140 characters following it, with line
breaks collapsed to the separator glyph and truncated to at most 260
characters; entity-based candidates carry an empty blurb.  In all
cases the blurb has at most 260 characters. -/
theorem C4_snippet_amended (text : List Char) (ents : List Ent) (c : Cand)
    (hc : c ∈ extract_restaurants_flexible text ents) :
    c.blurb.length ≤ 260 ∧
    ((∃ p ∈ ADDRESS_PATTERNS, ∃ se ∈ finditer p text,
        c.blurb = codeSnippet text se.1 se.2) ∨ c.blurb = []) := by
  have hmem : c ∈ allFound text ents := dedupAux_subset _ _ c hc
  rcases List.mem_append.mp hmem with hpat | hner
  · obtain ⟨p, hp, se, hse, rfl⟩ := mem_patternFound hpat
    refine ⟨?_, Or.inl ⟨p, hp, se, hse, rfl⟩⟩
    show (codeSnippet text se.1 se.2).length ≤ 260
    exact List.length_take_le 260 _
  · rw [mem_nerFound hner]
    exact ⟨by simp, Or.inr rfl⟩

/-- Witness for the amended C4 at the concrete candidate of
`textC4`. -/
theorem C4_witness :
    cand4.blurb.length ≤ 260 ∧
    ((∃ p ∈ ADDRESS_PATTERNS, ∃ se ∈ finditer p textC4,
        cand4.blurb = codeSnippet textC4 se.1 se.2) ∨ cand4.blurb = []) :=
  C4_snippet_amended textC4 [] cand4 (by decide)

/-- Claim C8: within one article the extractor's output carries at most
one candidate per address (the address list is duplicate-free), the
candidate kept for an address is exactly the first one produced by the
pattern passes (in source order, most specific first) followed by the
entity pass, and no address found is lost. -/
theorem C8_local_dedup (text : List Char) (ents : List Ent) :
    ((extract_restaurants_flexible text ents).map (fun c => c.address)).Nodup ∧
    (∀ c ∈ extract_restaurants_flexible text ents,
      (allFound text ents).find? (fun x => x.address == c.address) = some c) ∧
    ∀ c ∈ allFound text ents,
      ∃ c2 ∈ extract_restaurants_flexible text ents, c2.address = c.address := by
  refine ⟨dedupAux_nodup _ _, ?_, ?_⟩
  · intro c hc
    exact dedupAux_find _ _ c hc
  · intro c hc
    exact dedupAux_complete _ _ c hc (List.not_mem_nil _)

/-- Witness for C8 on text where patterns 1 and 4 produce the same
matched span: the kept candidate for that address is the first
occurrence (from pattern 1). -/
theorem C8_witness :
    ((extract_restaurants_flexible textC8 []).map (fun c => c.address)).Nodup ∧
    (allFound textC8 []).find? (fun x => x.address == cand8.address) = some cand8 :=
  ⟨(C8_local_dedup textC8 []).1, (C8_local_dedup textC8 []).2.1 cand8 (by decide)⟩

/-- Claim C9: an article whose text contains no digit and no borough
token yields no candidate — patterns 1, 2 and 4 need a digit, pattern 3
needs a borough name, and the entity filter at line 59 needs one of the
two inside the entity's text, which is a span of the article text — and
reconciling its empty candidate sequence leaves the dataset unchanged. -/
theorem C9_inert_input (text : List Char) (ents : List Ent) (g : Geo) (date : List Char)
    (st : St)
    (hd : text.any isDigitC = false)
    (hb : ∀ b ∈ BOROUGHS, ciHas b text = false)
    (he : ∀ en ∈ ents, subList en.text text = true) :
    extract_restaurants_flexible text ents = [] ∧
    (reconcile g date st (extract_restaurants_flexible text ents)).1 = st := by
  have hd2 : ∀ c ∈ text, isDigitC c = false := by
    intro c hc
    have h1 := List.any_eq_false.mp hd c hc
    simpa using h1
  have hdrop : ∀ (pos : Nat) (c : Char), c ∈ text.drop pos → isDigitC c = false :=
    fun pos c hc => hd2 c (List.drop_subset pos text hc)
  have hf1 : finditer pat1 text = [] :=
    finditer_nil _ _ (fun pos => seqMatch_rep_none isDigitC 5 _ _ (hdrop pos))
  have hf2 : finditer pat2 text = [] :=
    finditer_nil _ _ (fun pos => seqMatch_rep_none isDigitC 5 _ _ (hdrop pos))
  have hf4 : finditer pat4 text = [] :=
    finditer_nil _ _ (fun pos => seqMatch_rep_none isDigitC 5 _ _ (hdrop pos))
  have hf3 : finditer pat3 text = [] := by
    refine finditer_nil _ _ (fun pos => ?_)
    cases hsm : seqMatch pat3 (text.drop pos) with
    | none => rfl
    | some r =>
        exfalso
        obtain ⟨w, hw, hci⟩ :=
          seqMatch_alts_ciHas pat3 BOROUGHS _ r hsm (by simp [pat3])
        have h5 : ciHas w text = true := ciHas_drop hci
        rw [hb w hw] at h5
        cases h5
  have hpf : patternFound text = [] := by
    simp [patternFound, ADDRESS_PATTERNS, hf1, hf2, hf3, hf4]
  have hnf : nerFound ents = [] := by
    rw [nerFound, List.filterMap_eq_nil_iff]
    intro en hen
    have ha : en.text.any isDigitC = false := by
      rw [List.any_eq_false]
      intro c hc hcontra
      rw [hd2 c (subList_mem (he en hen) hc)] at hcontra
      cases hcontra
    have hbb : BOROUGHS.any (fun b => csHas b en.text) = false := by
      rw [List.any_eq_false]
      intro b hbm hcs
      have h6 : ciHas b text = true := csHas_ciHas (csHas_trans hcs (he en hen))
      rw [hb b hbm] at h6
      cases h6
    have hkeep : entKeep en.text = false := by
      simp [entKeep, ha, hbb]
    simp [hkeep]
  have hex : extract_restaurants_flexible text ents = [] := by
    simp [extract_restaurants_flexible, allFound, hpf, hnf, dedupAux]
  refine ⟨hex, ?_⟩
  rw [hex]
  simp [reconcile]

/-- Witness for C9 at a concrete inert article with one entity. -/
theorem C9_witness :
    extract_restaurants_flexible textC9 [entC9] = [] ∧
    (reconcile gNone [] emptySt (extract_restaurants_flexible textC9 [entC9])).1 =
      emptySt :=
  C9_inert_input textC9 [entC9] gNone [] emptySt (by decide) (by decide) (by decide)

end Sietsemap



